import Mathlib

/-!
Verification development for the GraphOrama ingestion-and-reachability engine
(`graph.service.ts`, Redis-backed variant with in-memory fallback).

The TypeScript service is shallowly embedded below.  The Redis keyspace after
`loadGraphRedis` is a pure function of the loaded `GraphData` (the load wipes
every `graph:*` key and rebuilds them deterministically), so each Redis set or
hash is modelled as a function of the input document.  The in-memory fallback
(`loadGraphMemory` / `getFilteredGraphMemory`) is modelled the same way.
JavaScript `Set`s are modelled as lists with membership-level semantics
(`List.dedup` models the deduplication a `Set` performs); `Map.get` is an
`Option`-valued lookup, and the non-null assertion `this.nodes.get(nodeId)!`
in `buildGraphResponse` is modelled by returning `none` (a thrown `TypeError`)
when the lookup fails.
-/

namespace GraphOrama

/-- `Vulnerability` record from `graph.interfaces.ts`: `file`, `severity`,
`message` and a string-keyed `metadata` mapping (modelled as an assoc list). -/
structure Vulnerability where
  file : String
  severity : String
  message : String
  metadata : List (String × String)
deriving DecidableEq

/-- `ServiceNode` from `graph.interfaces.ts`.  Optional fields use defaults:
`publicExposed?: boolean` becomes a `Bool` (absent = `false`), the optional
`vulnerabilities` array becomes a list (absent = `[]`), and the optional
`metadata` record stays an `Option` because the code distinguishes an absent
record from an empty one (`!node.metadata`). -/
structure ServiceNode where
  name : String
  kind : String
  language : String := ""
  path : String := ""
  publicExposed : Bool := false
  vulnerabilities : List Vulnerability := []
  metadata : Option (List (String × String)) := none
deriving DecidableEq

/-- The `to` field of an `Edge` is `string | string[]`. -/
inductive EdgeTo where
  | single (t : String)
  | multi (ts : List String)
deriving DecidableEq

/-- The target list an edge expands to: `Array.isArray(edge.to) ? edge.to : [edge.to]`. -/
def EdgeTo.targets : EdgeTo → List String
  | .single t => [t]
  | .multi ts => ts

/-- `Edge` from `graph.interfaces.ts` (`from` is a Lean keyword, hence `from_`). -/
structure Edge where
  from_ : String
  to_ : EdgeTo
deriving DecidableEq

/-- `GraphData` from `graph.interfaces.ts`: the load payload. -/
structure GraphData where
  nodes : List ServiceNode
  edges : List Edge
deriving DecidableEq

/-- `isSinkNode`: kind is one of `rds`, `sqs`, `sql`, `database`. -/
def isSinkNode (node : ServiceNode) : Bool :=
  node.kind == "rds" || node.kind == "sqs" || node.kind == "sql" || node.kind == "database"

/-- Every declared edge expanded into one directed `(from, target)` pair per
target, in document order (both backends expand multi-target edges this way). -/
def edgesExpanded (d : GraphData) : List (String × String) :=
  d.edges.flatMap (fun e => e.to_.targets.map (fun t => (e.from_, t)))

/-- The `graph:nodes:all` set / the key set of the in-memory `nodes` map:
declared node names, deduplicated. -/
def nodeNames (d : GraphData) : List String :=
  (d.nodes.map (·.name)).dedup

/-- The `graph:nodes:public` set / in-memory `publicNodes`: names of nodes with
a truthy `publicExposed`. -/
def publicNames (d : GraphData) : List String :=
  ((d.nodes.filter (·.publicExposed)).map (·.name)).dedup

/-- The `graph:nodes:sinks` set / in-memory `sinkNodes`. -/
def sinkNames (d : GraphData) : List String :=
  ((d.nodes.filter isSinkNode).map (·.name)).dedup

/-- The `graph:nodes:vulnerable` set / in-memory `vulnerableNodes`: nodes with a
non-empty `vulnerabilities` array. -/
def vulnerableNames (d : GraphData) : List String :=
  ((d.nodes.filter (fun n => !n.vulnerabilities.isEmpty)).map (·.name)).dedup

/-- All `(key, value)` metadata pairs of one node: its own `metadata` entries
plus every entry of each vulnerability's `metadata` (what `indexMetadata`
receives during `loadGraphRedis`). -/
def nodeMetaPairs (n : ServiceNode) : List (String × String) :=
  n.metadata.getD [] ++ n.vulnerabilities.flatMap (·.metadata)

/-- The `graph:nodes:meta:key:value` set: names of nodes holding the pair. -/
def metaIndex (d : GraphData) (kv : String × String) : List String :=
  ((d.nodes.filter (fun n => decide (kv ∈ nodeMetaPairs n))).map (·.name)).dedup

/-- The `graph:meta:keys` registry of known metadata pairs. -/
def metaKeysList (d : GraphData) : List (String × String) :=
  (d.nodes.flatMap nodeMetaPairs).dedup

/-- The `graph:edges:n` set: forward neighbours of `n` (recorded for every
expanded edge, whether or not its endpoints are declared nodes). -/
def redisEdges (d : GraphData) (n : String) : List String :=
  (((edgesExpanded d).filter (fun p => p.1 == n)).map (·.2)).dedup

/-- The `graph:reverse:n` set: reverse neighbours of `n`. -/
def redisReverse (d : GraphData) (n : String) : List String :=
  (((edgesExpanded d).filter (fun p => p.2 == n)).map (·.1)).dedup

/-- Traversal direction, as in `bfsRedis(startNode, direction, maxDepth)`. -/
inductive Direction where
  | forward
  | backward
deriving DecidableEq

/-- The adjacency `bfsRedis` consults for one step in the given direction. -/
def neighborsOf (d : GraphData) (dir : Direction) (n : String) : List String :=
  match dir with
  | .forward => redisEdges d n
  | .backward => redisReverse d n

/-- The `for (const neighbor of neighbors)` body of `bfsRedis`: walk the
neighbour list, adding each unvisited neighbour to `visited` and pushing it on
the queue with the stepped depth. -/
def bfsEnqueue : List String → List String → List (String × Nat) → Nat →
    List String × List (String × Nat)
  | [], visited, queue, _ => (visited, queue)
  | neighbor :: rest, visited, queue, ndepth =>
    if neighbor ∈ visited then bfsEnqueue rest visited queue ndepth
    else bfsEnqueue rest (visited ++ [neighbor]) (queue ++ [(neighbor, ndepth)]) ndepth

/-- The `while (queue.length > 0)` loop of `bfsRedis`: pop the front entry,
skip it when its depth has reached `maxDepth`, otherwise enqueue its unvisited
neighbours one level deeper.  The `fuel` argument is only a termination bound;
`bfsRedis` supplies one large enough that the queue always empties. -/
def bfsLoop (adj : String → List String) (maxDepth : Nat) :
    Nat → List (String × Nat) → List String → List String
  | 0, _, visited => visited
  | _ + 1, [], visited => visited
  | fuel + 1, (node, depth) :: rest, visited =>
    if maxDepth ≤ depth then bfsLoop adj maxDepth fuel rest visited
    else
      let vq := bfsEnqueue (adj node) visited rest (depth + 1)
      bfsLoop adj maxDepth fuel vq.2 vq.1

/-- `bfsRedis(startNode, direction, maxDepth = 10)`: breadth-first search over
the Redis adjacency sets, bounded by `maxDepth`, starting from a visited set
and queue holding only the start node at depth `0`. -/
def bfsRedis (d : GraphData) (startNode : String) (dir : Direction)
    (maxDepth : Nat := 10) : List String :=
  bfsLoop (neighborsOf d dir) maxDepth ((edgesExpanded d).length + 2)
    [(startNode, 0)] [startNode]

/-- The stored `graph:reachable:public:p` set: forward BFS, default depth 10. -/
def reachPublic (d : GraphData) (p : String) : List String :=
  bfsRedis d p .forward 10

/-- The stored `graph:reachable:sink:s` set: backward BFS, default depth 10. -/
def reachSink (d : GraphData) (s : String) : List String :=
  bfsRedis d s .backward 10

/-- The stored `graph:reachable:vulnerable:v` set: backward BFS to depth 5,
forward BFS to depth 5, and the seed itself, combined into one set. -/
def reachVulnerable (d : GraphData) (v : String) : List String :=
  bfsRedis d v .backward 5 ++ bfsRedis d v .forward 5 ++ [v]

/-- The stored `graph:reachable:meta:key:value:n` set, built like the
vulnerable sets (both directions to depth 5 plus the seed). -/
def reachMeta (d : GraphData) (_kv : String × String) (n : String) : List String :=
  bfsRedis d n .backward 5 ++ bfsRedis d n .forward 5 ++ [n]

/-- Specification-side reachability, following the spec's words: the set of
node names reachable from `s` within `k` edge hops of the adjacency `adj`
(`k = 0` reaches only `s`; one more hop reaches anything within `k` hops of a
neighbour).  This is the yardstick `bfsRedis` is proved against. -/
def specReachableWithin (adj : String → List String) : Nat → String → List String
  | 0, s => [s]
  | k + 1, s => s :: (adj s).flatMap (fun nb => specReachableWithin adj k nb)

/-- `FilterOptions` as consumed by `getFilteredGraph` in the Redis-backed
service: three boolean toggles plus an optional `metadataFilters` mapping.  An
*absent* mapping is `none`; a *present but empty* mapping is `some []` (the
code tests presence with the truthiness of the object, and `\x7b\x7d` is
truthy in JavaScript). -/
structure FilterOptions where
  startsWithPublic : Bool := false
  endsInSink : Bool := false
  hasVulnerability : Bool := false
  metadataFilters : Option (List (String × String)) := none
deriving DecidableEq

/-- `hasActiveFilters`: any boolean toggle set, or `metadataFilters` present
(`!!filters.metadataFilters`, which is `true` even for an empty mapping). -/
def hasActiveFilters (filters : FilterOptions) : Bool :=
  filters.startsWithPublic || filters.endsInSink ||
    filters.hasVulnerability || filters.metadataFilters.isSome

/-- The node ids produced by the `SUNION` over every reachability key listed by
the active filters in `getFilteredGraphRedis` (one stored set per seed of each
active role; a set is only stored when non-empty, and a missing key contributes
nothing to the union, so unioning the computed sets directly is equivalent). -/
def redisFilteredIds (d : GraphData) (filters : FilterOptions) : List String :=
  (if filters.startsWithPublic then (publicNames d).flatMap (reachPublic d) else []) ++
  (if filters.endsInSink then (sinkNames d).flatMap (reachSink d) else []) ++
  (if filters.hasVulnerability then (vulnerableNames d).flatMap (reachVulnerable d) else []) ++
  (match filters.metadataFilters with
   | some mfs => mfs.flatMap (fun kv => (metaIndex d kv).flatMap (reachMeta d kv))
   | none => [])

/-- The `nodeIds` computed by `getFilteredGraphRedis`: the filter union when
any filter is active, otherwise the whole `graph:nodes:all` set. -/
def redisQueryNodeIds (d : GraphData) (filters : FilterOptions) : List String :=
  if hasActiveFilters filters then redisFilteredIds d filters else nodeNames d

/-- The last stored record for a node name: `pipeline.hset` on
`graph:node:name` and `this.nodes.set(name, node)` both let the last declared
node with a given name win. -/
def lookupNode (d : GraphData) (name : String) : Option ServiceNode :=
  d.nodes.reverse.find? (fun n => n.name == name)

/-- A node of the query response (`id`, `name`, `group`, role flags, raw
vulnerability list and metadata). -/
structure GraphNodeResp where
  id : String
  name : String
  group : String
  isPublic : Bool
  isSink : Bool
  hasVulnerability : Bool
  vulnerabilities : List Vulnerability
  metadata : List (String × String)
deriving DecidableEq

/-- A link of the query response. -/
structure GraphLink where
  source : String
  target : String
  value : Nat := 1
deriving DecidableEq

/-- `GraphResponse`: nodes, links and the per-response counts. -/
structure GraphResponse where
  nodes : List GraphNodeResp
  links : List GraphLink
  totalNodes : Nat
  totalEdges : Nat
  publicNodes : Nat
  sinkNodes : Nat
  vulnerableNodes : Nat
deriving DecidableEq

/-- One response node as formatted by `buildGraphResponseRedis`: the hash
fields (missing hash yields the defaults `unknown` / `false` / empty), with
sink and vulnerability flags read from the role index sets. -/
def buildNodeRespRedis (d : GraphData) (nodeId : String) : GraphNodeResp :=
  { id := nodeId
    name := nodeId
    group := match lookupNode d nodeId with
      | some nd => if nd.kind == "" then "unknown" else nd.kind
      | none => "unknown"
    isPublic := match lookupNode d nodeId with
      | some nd => nd.publicExposed
      | none => false
    isSink := decide (nodeId ∈ sinkNames d)
    hasVulnerability := decide (nodeId ∈ vulnerableNames d)
    vulnerabilities := match lookupNode d nodeId with
      | some nd => nd.vulnerabilities
      | none => []
    metadata := match lookupNode d nodeId with
      | some nd => nd.metadata.getD []
      | none => [] }

/-- The links kept by `buildGraphResponseRedis`: for every included node, its
forward neighbours that are themselves included. -/
def buildLinksRedis (d : GraphData) (nodeIds : List String) : List GraphLink :=
  nodeIds.dedup.flatMap (fun source =>
    ((redisEdges d source).filter (fun target => decide (target ∈ nodeIds))).map
      (fun target => { source := source, target := target }))

/-- `buildGraphResponseRedis`: deduplicate the ids, format each node from its
hash, keep induced links, and count roles within the response. -/
def buildGraphResponseRedis (d : GraphData) (nodeIds : List String) : GraphResponse :=
  let graphNodes := nodeIds.dedup.map (buildNodeRespRedis d)
  let graphLinks := buildLinksRedis d nodeIds
  { nodes := graphNodes
    links := graphLinks
    totalNodes := graphNodes.length
    totalEdges := graphLinks.length
    publicNodes := (graphNodes.filter (·.isPublic)).length
    sinkNodes := (graphNodes.filter (·.isSink)).length
    vulnerableNodes := (graphNodes.filter (·.hasVulnerability)).length }

/-- `getFilteredGraphRedis`: union the reachability sets named by the active
filters (or take all nodes) and build the response. -/
def getFilteredGraphRedis (d : GraphData) (filters : FilterOptions) : GraphResponse :=
  buildGraphResponseRedis d (redisQueryNodeIds d filters)

/-- In-memory forward adjacency after `loadGraphMemory`: `processNodeChunk`
creates an adjacency entry for every declared node, and `processEdgeChunk` adds
targets with `this.adjacencyList.get(edge.from)?.add(destination)` — the
optional chaining silently drops edges whose source is not a declared node. -/
def memAdj (d : GraphData) (n : String) : List String :=
  if n ∈ nodeNames d
  then (((edgesExpanded d).filter (fun p => p.1 == n)).map (·.2)).dedup
  else []

/-- In-memory reverse adjacency: `processEdgeChunk` creates the reverse entry
on demand for any destination, declared or not. -/
def memRev (d : GraphData) (n : String) : List String :=
  (((edgesExpanded d).filter (fun p => p.2 == n)).map (·.1)).dedup

/-- A precomputed `Route`. -/
structure Route where
  path : List String
  source : String
  target : String
  hasVulnerability : Bool
  isPublicSource : Bool
  isSinkTarget : Bool
deriving DecidableEq

/-- `createRoute(path)`: source and target are the path endpoints, and the
flags are read off the role index sets. -/
def createRoute (d : GraphData) (path : List String) : Route :=
  { path := path
    source := path.headD ""
    target := path.getLastD ""
    hasVulnerability := path.any (fun n => decide (n ∈ vulnerableNames d))
    isPublicSource := decide (path.headD "" ∈ publicNames d)
    isSinkTarget := decide (path.getLastD "" ∈ sinkNames d) }

/-- The adjacency `explorePathsRecursive` consults (`this.adjacencyList` or
`this.reverseAdjacencyList`, with `|| new Set()` for missing entries). -/
def memNeighborsOf (d : GraphData) (dir : Direction) (n : String) : List String :=
  match dir with
  | .forward => memAdj d n
  | .backward => memRev d n

/-- `explorePathsRecursive`: from `currentNode` (already on `currentPath`),
mark it visited, then for every unvisited neighbour emit the route for the
extended path and recurse one level deeper on a private copy of the visited
set.  The remaining-depth argument is `maxDepth - depth`; the guard
`depth >= maxDepth` is the `0` case.  The emitted route *set* is independent
of the event-loop interleaving because every branch mutates only its own copy
of the visited set. -/
def exploreRec (d : GraphData) (dir : Direction) :
    Nat → String → List String → List String → List Route
  | 0, _, _, _ => []
  | rem + 1, currentNode, currentPath, visited =>
    let visited' := visited ++ [currentNode]
    (memNeighborsOf d dir currentNode).flatMap (fun neighbor =>
      if neighbor ∈ visited' then []
      else
        let newPath := match dir with
          | .forward => currentPath ++ [neighbor]
          | .backward => neighbor :: currentPath
        createRoute d newPath :: exploreRec d dir rem neighbor newPath visited')

/-- `computePathsFromNodeAsync(startNode, direction, maxDepth = 10)`. -/
def computePathsFromNode (d : GraphData) (startNode : String) (dir : Direction)
    (maxDepth : Nat := 10) : List Route :=
  exploreRec d dir maxDepth startNode [startNode] []

/-- `computeVulnerablePathsAsync(vulnerableNode)`: splice every incoming path
(backward, depth 5) with every outgoing path of at least one edge (forward,
depth 5) through the seed. -/
def computeVulnerablePaths (d : GraphData) (vulnerableNode : String) : List Route :=
  let incomingPaths := computePathsFromNode d vulnerableNode .backward 5
  let outgoingPaths := computePathsFromNode d vulnerableNode .forward 5
  incomingPaths.flatMap (fun inPath =>
    outgoingPaths.filterMap (fun outPath =>
      if 1 < outPath.path.length
      then some (createRoute d (inPath.path.dropLast ++ outPath.path))
      else none))

/-- All routes held in `this.publicPaths` (one entry per public seed). -/
def memPublicRoutes (d : GraphData) : List Route :=
  (publicNames d).flatMap (fun p => computePathsFromNode d p .forward 10)

/-- All routes held in `this.sinkPaths`. -/
def memSinkRoutes (d : GraphData) : List Route :=
  (sinkNames d).flatMap (fun s => computePathsFromNode d s .backward 10)

/-- All routes held in `this.vulnerablePaths`. -/
def memVulnRoutes (d : GraphData) : List Route :=
  (vulnerableNames d).flatMap (computeVulnerablePaths d)

/-- `getAllPrecomputedRoutes`. -/
def getAllPrecomputedRoutes (d : GraphData) : List Route :=
  memPublicRoutes d ++ memSinkRoutes d ++ memVulnRoutes d

/-- The routes gathered into `filteredRoutes` by the three role filters of
`getFilteredGraphMemory`: public routes unconditionally; sink routes only when
no public filter demands a public source; vulnerable routes refined by both
other active filters. -/
def memSelectedRoutes (d : GraphData) (filters : FilterOptions) : List Route :=
  (if filters.startsWithPublic then memPublicRoutes d else []) ++
  (if filters.endsInSink
   then (memSinkRoutes d).filter (fun route => !filters.startsWithPublic || route.isPublicSource)
   else []) ++
  (if filters.hasVulnerability
   then (memVulnRoutes d).filter (fun route =>
     (!filters.startsWithPublic || route.isPublicSource) &&
       (!filters.endsInSink || route.isSinkTarget))
   else [])

/-- Does the stored node bear every requested metadata pair?  (`false` when the
node record or its metadata object is missing.) -/
def nodeMatchesMeta (d : GraphData) (nodeId : String) (mfs : List (String × String)) : Bool :=
  match lookupNode d nodeId with
  | none => false
  | some nd =>
    match nd.metadata with
    | none => false
    | some meta => mfs.all (fun kv => meta.lookup kv.1 == some kv.2)

/-- The `finalRoutes` of `getFilteredGraphMemory`: the role-filtered routes,
pruned by the metadata filter when one is present (a route survives when some
node on it matches every pair), or every precomputed route when no filter at
all is active. -/
def memFinalRoutes (d : GraphData) (filters : FilterOptions) : List Route :=
  if hasActiveFilters filters then
    match filters.metadataFilters with
    | some mfs =>
      (memSelectedRoutes d filters).filter (fun route =>
        route.path.any (fun nodeId => nodeMatchesMeta d nodeId mfs))
    | none => memSelectedRoutes d filters
  else getAllPrecomputedRoutes d

/-- Consecutive pairs of a path: the links `buildGraphResponse` derives. -/
def consecPairs : List String → List (String × String)
  | a :: b :: rest => (a, b) :: consecPairs (b :: rest)
  | _ => []

/-- One response node as formatted by the in-memory `buildGraphResponse` after
the non-null lookup `this.nodes.get(nodeId)!` succeeded. -/
def buildNodeRespMem (d : GraphData) (nodeId : String) (nd : ServiceNode) : GraphNodeResp :=
  { id := nodeId
    name := nodeId
    group := nd.kind
    isPublic := decide (nodeId ∈ publicNames d)
    isSink := decide (nodeId ∈ sinkNames d)
    hasVulnerability := decide (nodeId ∈ vulnerableNames d)
    vulnerabilities := nd.vulnerabilities
    metadata := nd.metadata.getD [] }

/-- The in-memory `buildGraphResponse(routes)`: collect the node set and link
set of the routes, then format each node via `this.nodes.get(nodeId)!` — the
whole call fails (`none`) as soon as a route mentions a name that is not a
declared node. -/
def buildGraphResponseMem (d : GraphData) (routes : List Route) : Option GraphResponse :=
  let nodeIds := (routes.flatMap (·.path)).dedup
  let linkPairs := (routes.flatMap (fun route => consecPairs route.path)).dedup
  match nodeIds.mapM (fun nodeId =>
      (lookupNode d nodeId).map (buildNodeRespMem d nodeId)) with
  | none => none
  | some graphNodes =>
    let graphLinks := linkPairs.map (fun p => ({ source := p.1, target := p.2 } : GraphLink))
    some
      { nodes := graphNodes
        links := graphLinks
        totalNodes := graphNodes.length
        totalEdges := graphLinks.length
        publicNodes := (graphNodes.filter (·.isPublic)).length
        sinkNodes := (graphNodes.filter (·.isSink)).length
        vulnerableNodes := (graphNodes.filter (·.hasVulnerability)).length }

/-- `getFilteredGraphMemory`. -/
def getFilteredGraphMemory (d : GraphData) (filters : FilterOptions) :
    Option GraphResponse :=
  buildGraphResponseMem d (memFinalRoutes d filters)

/-- The node ids of an optional response (`[]` for a failed call). -/
def respNodeIds : Option GraphResponse → List String
  | none => []
  | some r => r.nodes.map (·.id)

/-- The statistics payload (`nodesByKind` is a name-to-count mapping; the
Redis branch always reports it empty). -/
structure Statistics where
  totalNodes : Nat
  totalEdges : Nat
  publicNodes : Nat
  sinkNodes : Nat
  vulnerableNodes : Nat
  nodesByKind : List (String × Nat)
  storageType : String
deriving DecidableEq

/-- The `graph:edges:all` set: one member string per expanded edge. -/
def edgeStrings (d : GraphData) : List String :=
  ((edgesExpanded d).map (fun p => p.1 ++ "->" ++ p.2)).dedup

/-- `nodesByKind` as the in-memory service computes it: per kind, the number
of distinct node names of that kind. -/
def nodesByKindMem (d : GraphData) : List (String × Nat) :=
  (d.nodes.map (·.kind)).dedup.map (fun k =>
    (k, ((d.nodes.filter (fun n => n.kind == k)).map (·.name)).dedup.length))

/-- `getStatisticsRedis`: cardinalities of the raw index sets. -/
def getStatisticsRedis (d : GraphData) : Statistics :=
  { totalNodes := (nodeNames d).length
    totalEdges := (edgeStrings d).length
    publicNodes := (publicNames d).length
    sinkNodes := (sinkNames d).length
    vulnerableNodes := (vulnerableNames d).length
    nodesByKind := []
    storageType := "redis" }

/-- `getStatisticsMemory`: map sizes and the summed adjacency cardinalities. -/
def getStatisticsMemory (d : GraphData) : Statistics :=
  { totalNodes := (nodeNames d).length
    totalEdges := ((nodeNames d).map (fun n => (memAdj d n).length)).sum
    publicNodes := (publicNames d).length
    sinkNodes := (sinkNames d).length
    vulnerableNodes := (vulnerableNames d).length
    nodesByKind := nodesByKindMem d
    storageType := "memory" }

/-- The portion of the Redis keyspace the engine owns (everything underneath
the `graph:` prefix), keyed association-list style in document order. -/
structure RedisState where
  allNodes : List String
  publicSet : List String
  sinkSet : List String
  vulnSet : List String
  edgesAll : List String
  adjacency : List (String × List String)
  reverse : List (String × List String)
  nodeHashes : List (String × ServiceNode)
  metaPairs : List (String × String)
  metaIndexA : List ((String × String) × List String)
  reachPublicA : List (String × List String)
  reachSinkA : List (String × List String)
  reachVulnA : List (String × List String)
  reachMetaA : List (((String × String) × String) × List String)

/-- The keyspace before any load. -/
def emptyRedisState : RedisState :=
  { allNodes := [], publicSet := [], sinkSet := [], vulnSet := [], edgesAll := []
    adjacency := [], reverse := [], nodeHashes := [], metaPairs := []
    metaIndexA := [], reachPublicA := [], reachSinkA := [], reachVulnA := []
    reachMetaA := [] }

/-- `loadGraphRedis(data)`: the pipeline first deletes every `graph:*` key, so
the previous state is discarded wholesale, and then rebuilds every index and
precomputed reachability set from the new document alone. -/
def loadGraphRedisS (_prev : RedisState) (d : GraphData) : RedisState :=
  { allNodes := nodeNames d
    publicSet := publicNames d
    sinkSet := sinkNames d
    vulnSet := vulnerableNames d
    edgesAll := edgeStrings d
    adjacency := ((edgesExpanded d).map (·.1)).dedup.map (fun n => (n, redisEdges d n))
    reverse := ((edgesExpanded d).map (·.2)).dedup.map (fun n => (n, redisReverse d n))
    nodeHashes := (nodeNames d).filterMap (fun n => (lookupNode d n).map (fun nd => (n, nd)))
    metaPairs := metaKeysList d
    metaIndexA := (metaKeysList d).map (fun kv => (kv, metaIndex d kv))
    reachPublicA := (publicNames d).map (fun p => (p, reachPublic d p))
    reachSinkA := (sinkNames d).map (fun s => (s, reachSink d s))
    reachVulnA := (vulnerableNames d).map (fun v => (v, reachVulnerable d v))
    reachMetaA := (metaKeysList d).flatMap (fun kv =>
      (metaIndex d kv).map (fun n => ((kv, n), reachMeta d kv n))) }

/-- `getStatisticsRedis` read off the stored keyspace. -/
def getStatisticsRedisS (s : RedisState) : Statistics :=
  { totalNodes := s.allNodes.length
    totalEdges := s.edgesAll.length
    publicNodes := s.publicSet.length
    sinkNodes := s.sinkSet.length
    vulnerableNodes := s.vulnSet.length
    nodesByKind := []
    storageType := "redis" }

/-- The in-memory service's instance fields. -/
structure MemState where
  nodesM : List (String × ServiceNode)
  adjacencyL : List (String × List String)
  reverseL : List (String × List String)
  publicNodesS : List String
  sinkNodesS : List String
  vulnerableNodesS : List String
  nodesByKindL : List (String × Nat)
  publicPathsM : List (String × List Route)
  sinkPathsM : List (String × List Route)
  vulnerablePathsM : List (String × List Route)

/-- The fields right after `initializeEmptyGraph`. -/
def emptyMemState : MemState :=
  { nodesM := [], adjacencyL := [], reverseL := [], publicNodesS := []
    sinkNodesS := [], vulnerableNodesS := [], nodesByKindL := []
    publicPathsM := [], sinkPathsM := [], vulnerablePathsM := [] }

/-- `loadGraphMemory(data)`: `initializeEmptyGraph` clears every instance map
and set, so the previous state is discarded wholesale before the new document
is preprocessed and its paths precomputed. -/
def loadGraphMemoryS (_prev : MemState) (d : GraphData) : MemState :=
  { nodesM := (nodeNames d).filterMap (fun n => (lookupNode d n).map (fun nd => (n, nd)))
    adjacencyL := (nodeNames d).map (fun n => (n, memAdj d n))
    reverseL := ((nodeNames d) ++ (edgesExpanded d).map (·.2)).dedup.map
      (fun n => (n, memRev d n))
    publicNodesS := publicNames d
    sinkNodesS := sinkNames d
    vulnerableNodesS := vulnerableNames d
    nodesByKindL := nodesByKindMem d
    publicPathsM := (publicNames d).map (fun p => (p, computePathsFromNode d p .forward 10))
    sinkPathsM := (sinkNames d).map (fun s => (s, computePathsFromNode d s .backward 10))
    vulnerablePathsM := (vulnerableNames d).map (fun v => (v, computeVulnerablePaths d v)) }

/-- `getStatisticsMemory` read off the instance fields. -/
def getStatisticsMemoryS (s : MemState) : Statistics :=
  { totalNodes := s.nodesM.length
    totalEdges := (s.adjacencyL.map (fun p => p.2.length)).sum
    publicNodes := s.publicNodesS.length
    sinkNodes := s.sinkNodesS.length
    vulnerableNodes := s.vulnerableNodesS.length
    nodesByKind := s.nodesByKindL
    storageType := "memory" }

/-- The empty filter object. -/
def fEmpty : FilterOptions := {}

/-- `startsWithPublic: true` only. -/
def fPub : FilterOptions := { startsWithPublic := true }

/-- `endsInSink: true` only. -/
def fSink : FilterOptions := { endsInSink := true }

/-- `startsWithPublic: true, endsInSink: true`. -/
def fBoth : FilterOptions := { startsWithPublic := true, endsInSink := true }

/-- `metadataFilters` present but holding no pair. -/
def fMetaEmpty : FilterOptions := { metadataFilters := some [] }

/-- A 12-node unbranched chain `n0 → n1 → ... → n11` whose head is public. -/
def gChain : GraphData :=
  { nodes :=
      [ { name := "n0", kind := "service", publicExposed := true }
      , { name := "n1", kind := "service" }, { name := "n2", kind := "service" }
      , { name := "n3", kind := "service" }, { name := "n4", kind := "service" }
      , { name := "n5", kind := "service" }, { name := "n6", kind := "service" }
      , { name := "n7", kind := "service" }, { name := "n8", kind := "service" }
      , { name := "n9", kind := "service" }, { name := "n10", kind := "service" }
      , { name := "n11", kind := "service" } ]
    edges :=
      [ { from_ := "n0", to_ := .single "n1" }, { from_ := "n1", to_ := .single "n2" }
      , { from_ := "n2", to_ := .single "n3" }, { from_ := "n3", to_ := .single "n4" }
      , { from_ := "n4", to_ := .single "n5" }, { from_ := "n5", to_ := .single "n6" }
      , { from_ := "n6", to_ := .single "n7" }, { from_ := "n7", to_ := .single "n8" }
      , { from_ := "n8", to_ := .single "n9" }, { from_ := "n9", to_ := .single "n10" }
      , { from_ := "n10", to_ := .single "n11" } ] }

/-- A sink `B` fed by a non-public service `C` (no public node at all). -/
def gSinkOnly : GraphData :=
  { nodes :=
      [ { name := "B", kind := "rds" }
      , { name := "C", kind := "service" } ]
    edges := [ { from_ := "C", to_ := .single "B" } ] }

/-- A single declared node with no role flags and no edges. -/
def gIsolated : GraphData :=
  { nodes := [ { name := "C", kind := "service" } ], edges := [] }

/-- A single public node with no edges. -/
def gIsolatedPublic : GraphData :=
  { nodes := [ { name := "A", kind := "service", publicExposed := true } ], edges := [] }

/-- A public node with an edge to an undeclared name `X`. -/
def gUndeclaredTarget : GraphData :=
  { nodes := [ { name := "A", kind := "service", publicExposed := true } ]
    edges := [ { from_ := "A", to_ := .single "X" } ] }

/-- A declared node `A` with an incoming edge from an undeclared name `X`. -/
def gUndeclaredSource : GraphData :=
  { nodes := [ { name := "A", kind := "service" } ]
    edges := [ { from_ := "X", to_ := .single "A" } ] }

/-- A vulnerable node `V1` between `A` and `B`. -/
def gVuln : GraphData :=
  { nodes :=
      [ { name := "A", kind := "service" }
      , { name := "V1", kind := "service"
          vulnerabilities := [ { file := "f.js", severity := "high", message := "m"
                                 metadata := [("cwe", "79")] } ] }
      , { name := "B", kind := "service" } ]
    edges :=
      [ { from_ := "A", to_ := .single "V1" }
      , { from_ := "V1", to_ := .single "B" } ] }

/-- Two small documents used to exercise reload semantics. -/
def gFirst : GraphData :=
  { nodes := [ { name := "A1", kind := "service", publicExposed := true } ]
    edges := [] }

/-- The replacement document of the reload scenario. -/
def gSecond : GraphData :=
  { nodes :=
      [ { name := "B", kind := "rds" }
      , { name := "A", kind := "service", publicExposed := true } ]
    edges := [ { from_ := "A", to_ := .single "B" } ] }

/-! ### Membership characterizations of the derived indexes -/

lemma mem_nodeNames {d : GraphData} {x : String} :
    x ∈ nodeNames d ↔ ∃ n ∈ d.nodes, n.name = x := by
  simp [nodeNames, List.mem_dedup, List.mem_map]

lemma mem_publicNames {d : GraphData} {x : String} :
    x ∈ publicNames d ↔ ∃ n ∈ d.nodes, n.publicExposed = true ∧ n.name = x := by
  simp [publicNames, List.mem_dedup, List.mem_map, List.mem_filter, and_assoc]

lemma publicNames_subset {d : GraphData} {x : String} (h : x ∈ publicNames d) :
    x ∈ nodeNames d := by
  obtain ⟨n, hn, _, hname⟩ := mem_publicNames.1 h
  exact mem_nodeNames.2 ⟨n, hn, hname⟩

lemma sinkNames_subset {d : GraphData} {x : String} (h : x ∈ sinkNames d) :
    x ∈ nodeNames d := by
  simp only [sinkNames, List.mem_dedup, List.mem_map, List.mem_filter] at h
  obtain ⟨n, ⟨hn, _⟩, hname⟩ := h
  exact mem_nodeNames.2 ⟨n, hn, hname⟩

lemma vulnerableNames_subset {d : GraphData} {x : String} (h : x ∈ vulnerableNames d) :
    x ∈ nodeNames d := by
  simp only [vulnerableNames, List.mem_dedup, List.mem_map, List.mem_filter] at h
  obtain ⟨n, ⟨hn, _⟩, hname⟩ := h
  exact mem_nodeNames.2 ⟨n, hn, hname⟩

lemma metaIndex_subset {d : GraphData} {kv : String × String} {x : String}
    (h : x ∈ metaIndex d kv) : x ∈ nodeNames d := by
  simp only [metaIndex, List.mem_dedup, List.mem_map, List.mem_filter] at h
  obtain ⟨n, ⟨hn, _⟩, hname⟩ := h
  exact mem_nodeNames.2 ⟨n, hn, hname⟩

lemma mem_redisEdges {d : GraphData} {n v : String} :
    v ∈ redisEdges d n ↔ (n, v) ∈ edgesExpanded d := by
  simp only [redisEdges, List.mem_dedup, List.mem_map, List.mem_filter, beq_iff_eq]
  constructor
  · rintro ⟨⟨p1, p2⟩, ⟨hp, h1⟩, h2⟩
    simp only at h1 h2
    subst h1; subst h2; exact hp
  · intro h
    exact ⟨(n, v), ⟨h, rfl⟩, rfl⟩

lemma mem_redisReverse {d : GraphData} {n u : String} :
    u ∈ redisReverse d n ↔ (u, n) ∈ edgesExpanded d := by
  simp only [redisReverse, List.mem_dedup, List.mem_map, List.mem_filter, beq_iff_eq]
  constructor
  · rintro ⟨⟨p1, p2⟩, ⟨hp, h1⟩, h2⟩
    simp only at h1 h2
    subst h1; subst h2; exact hp
  · intro h
    exact ⟨(u, n), ⟨h, rfl⟩, rfl⟩

/-! ### Properties of the specification-side bounded reachability -/

lemma specReachableWithin_zero_iff (adj : String → List String) (s x : String) :
    x ∈ specReachableWithin adj 0 s ↔ x = s := by
  show x ∈ [s] ↔ x = s
  simp

lemma specReachableWithin_succ_iff (adj : String → List String) (k : Nat) (s x : String) :
    x ∈ specReachableWithin adj (k + 1) s ↔
      x = s ∨ ∃ nb ∈ adj s, x ∈ specReachableWithin adj k nb := by
  show x ∈ s :: (adj s).flatMap (fun nb => specReachableWithin adj k nb) ↔ _
  simp

lemma specReachableWithin_self (adj : String → List String) (k : Nat) (s : String) :
    s ∈ specReachableWithin adj k s := by
  cases k with
  | zero => exact (specReachableWithin_zero_iff adj s s).2 rfl
  | succ k => exact (specReachableWithin_succ_iff adj k s s).2 (Or.inl rfl)

lemma specReachableWithin_succ (adj : String → List String) :
    ∀ (k : Nat) (s x : String), x ∈ specReachableWithin adj k s →
      x ∈ specReachableWithin adj (k + 1) s := by
  intro k
  induction k with
  | zero =>
    intro s x h
    rw [specReachableWithin_zero_iff] at h
    subst h
    exact specReachableWithin_self adj 1 _
  | succ k ih =>
    intro s x h
    rw [specReachableWithin_succ_iff] at h ⊢
    rcases h with h | ⟨nb, hnb, hx⟩
    · exact Or.inl h
    · exact Or.inr ⟨nb, hnb, ih nb x hx⟩

lemma specReachableWithin_mono (adj : String → List String) {j k : Nat} (h : j ≤ k) :
    ∀ (s x : String), x ∈ specReachableWithin adj j s → x ∈ specReachableWithin adj k s := by
  induction h with
  | refl => intro s x hx; exact hx
  | step _ ih => intro s x hx; exact specReachableWithin_succ adj _ s x (ih s x hx)

lemma specReachableWithin_step (adj : String → List String) :
    ∀ (k : Nat) (s x y : String), x ∈ specReachableWithin adj k s → y ∈ adj x →
      y ∈ specReachableWithin adj (k + 1) s := by
  intro k
  induction k with
  | zero =>
    intro s x y hx hy
    rw [specReachableWithin_zero_iff] at hx
    subst hx
    exact (specReachableWithin_succ_iff adj 0 _ y).2
      (Or.inr ⟨y, hy, (specReachableWithin_zero_iff adj y y).2 rfl⟩)
  | succ k ih =>
    intro s x y hx hy
    rw [specReachableWithin_succ_iff] at hx
    rw [specReachableWithin_succ_iff]
    rcases hx with rfl | ⟨nb, hnb, hx⟩
    · exact Or.inr ⟨y, hy, specReachableWithin_self adj (k + 1) y⟩
    · exact Or.inr ⟨nb, hnb, ih nb x y hx hy⟩

lemma specReachableWithin_src (adj : String → List String) :
    ∀ (k : Nat) (s x : String), x ∈ specReachableWithin adj k s →
      x = s ∨ ∃ n, x ∈ adj n := by
  intro k
  induction k with
  | zero =>
    intro s x h
    rw [specReachableWithin_zero_iff] at h
    exact Or.inl h
  | succ k ih =>
    intro s x h
    rw [specReachableWithin_succ_iff] at h
    rcases h with rfl | ⟨nb, hnb, hx⟩
    · exact Or.inl rfl
    · rcases ih nb x hx with rfl | h
      · exact Or.inr ⟨s, hnb⟩
      · exact Or.inr h

/-! ### Characterization of one neighbour-enqueueing pass -/

lemma bfsEnqueue_spec (ndepth : Nat) :
    ∀ (nbs visited : List String) (queue : List (String × Nat)),
    ∃ P : List (String × Nat),
      (bfsEnqueue nbs visited queue ndepth).1 = visited ++ P.map Prod.fst ∧
      (bfsEnqueue nbs visited queue ndepth).2 = queue ++ P ∧
      (∀ p ∈ P, p.2 = ndepth ∧ p.1 ∈ nbs ∧ p.1 ∉ visited) ∧
      (P.map Prod.fst).Nodup ∧
      (∀ x ∈ nbs, x ∉ visited → x ∈ P.map Prod.fst) := by
  intro nbs
  induction nbs with
  | nil =>
    intro visited queue
    refine ⟨[], by simp [bfsEnqueue], by simp [bfsEnqueue], by simp, by simp, by simp⟩
  | cons nb rest ih =>
    intro visited queue
    by_cases hmem : nb ∈ visited
    · obtain ⟨P, h1, h2, h3, h4, h5⟩ := ih visited queue
      refine ⟨P, ?_, ?_, ?_, h4, ?_⟩
      · rw [bfsEnqueue, if_pos hmem]; exact h1
      · rw [bfsEnqueue, if_pos hmem]; exact h2
      · intro p hp
        obtain ⟨hd, hm, hv⟩ := h3 p hp
        exact ⟨hd, List.mem_cons_of_mem nb hm, hv⟩
      · intro x hx hxv
        rcases List.mem_cons.1 hx with rfl | hx'
        · exact absurd hmem hxv
        · exact h5 x hx' hxv
    · obtain ⟨P, h1, h2, h3, h4, h5⟩ := ih (visited ++ [nb]) (queue ++ [(nb, ndepth)])
      refine ⟨(nb, ndepth) :: P, ?_, ?_, ?_, ?_, ?_⟩
      · rw [bfsEnqueue, if_neg hmem, h1]; simp
      · rw [bfsEnqueue, if_neg hmem, h2]; simp
      · intro p hp
        rcases List.mem_cons.1 hp with rfl | hp'
        · exact ⟨rfl, List.mem_cons_self nb rest, hmem⟩
        · obtain ⟨hd, hm, hv⟩ := h3 p hp'
          refine ⟨hd, List.mem_cons_of_mem nb hm, fun hc => hv ?_⟩
          exact List.mem_append_left [nb] hc
      · refine List.nodup_cons.2 ⟨fun hc => ?_, h4⟩
        obtain ⟨p, hp, hpe⟩ := List.mem_map.1 hc
        exact (h3 p hp).2.2 (by simp [hpe])
      · intro x hx hxv
        rcases List.mem_cons.1 hx with rfl | hx'
        · exact List.mem_cons_self _ _
        · by_cases hxnb : x = nb
          · subst hxnb; exact List.mem_cons_self _ _
          · refine List.mem_cons_of_mem _ (h5 x hx' ?_)
            simp [hxv, hxnb]

/-! ### Termination accounting for the BFS fuel -/

lemma length_filter_le_of_imp {α : Type} (l : List α) (p q : α → Bool)
    (h : ∀ a ∈ l, p a = true → q a = true) :
    (l.filter p).length ≤ (l.filter q).length := by
  induction l with
  | nil => simp
  | cons a l ih =>
    have ih' := ih (fun b hb hpb => h b (List.mem_cons_of_mem a hb) hpb)
    by_cases hp : p a = true
    · have hq := h a (List.mem_cons_self a l) hp
      rw [List.filter_cons, List.filter_cons, if_pos hp, if_pos hq]
      simpa using ih'
    · rw [List.filter_cons, if_neg hp]
      by_cases hq : q a = true
      · rw [List.filter_cons, if_pos hq]
        exact ih'.trans (Nat.le_succ _)
      · rw [List.filter_cons, if_neg hq]
        exact ih'

lemma length_filter_not_mem_snoc_lt (univ : List String) :
    ∀ (visited : List String) (x : String), x ∈ univ → x ∉ visited →
    (univ.filter (fun y => decide (y ∉ visited ++ [x]))).length <
      (univ.filter (fun y => decide (y ∉ visited))).length := by
  induction univ with
  | nil => intro visited x hx; cases hx
  | cons u us ih =>
    intro visited x hx hxv
    by_cases hux : u = x
    · subst hux
      have hkeep : decide (u ∉ visited) = true := by simp [hxv]
      have hdrop : decide (u ∉ visited ++ [u]) = false := by simp
      rw [List.filter_cons, List.filter_cons, if_pos hkeep, if_neg (by simp [hdrop])]
      have hle := length_filter_le_of_imp us
        (fun y => decide (y ∉ visited ++ [u])) (fun y => decide (y ∉ visited))
        (fun a _ hpa => by
          simp only [decide_eq_true_iff] at hpa ⊢
          exact fun hc => hpa (List.mem_append_left [u] hc))
      simpa using Nat.lt_succ_of_le hle
    · have hx' : x ∈ us := by
        rcases List.mem_cons.1 hx with rfl | hx'
        · exact absurd rfl hux
        · exact hx'
      by_cases huv : u ∈ visited
      · have h1 : decide (u ∉ visited) = false := by simp [huv]
        have h2 : decide (u ∉ visited ++ [u]) = false := by simp
        have h2' : decide (u ∉ visited ++ [x]) = false := by
          simp [List.mem_append_left [x] huv]
        rw [List.filter_cons, List.filter_cons, if_neg (by simp [huv]),
          if_neg (by simp [List.mem_append, huv])]
        exact ih visited x hx' hxv
      · have h1 : decide (u ∉ visited) = true := by simp [huv]
        have h2 : decide (u ∉ visited ++ [x]) = true := by simp [huv, hux]
        rw [List.filter_cons, List.filter_cons, if_pos h2, if_pos h1]
        simpa using Nat.succ_lt_succ (ih visited x hx' hxv)

lemma length_filter_not_mem_append_le (univ : List String) :
    ∀ (P visited : List String), P.Nodup → (∀ x ∈ P, x ∈ univ) → (∀ x ∈ P, x ∉ visited) →
    (univ.filter (fun y => decide (y ∉ visited ++ P))).length + P.length ≤
      (univ.filter (fun y => decide (y ∉ visited))).length := by
  intro P
  induction P with
  | nil =>
    intro visited _ _ _
    simp
  | cons x P ih =>
    intro visited hnd huniv hvis
    have h1 := length_filter_not_mem_snoc_lt univ visited x
      (huniv x (List.mem_cons_self x P)) (hvis x (List.mem_cons_self x P))
    have h2 := ih (visited ++ [x]) (List.nodup_cons.1 hnd).2
      (fun y hy => huniv y (List.mem_cons_of_mem x hy))
      (fun y hy hc => by
        rcases List.mem_append.1 hc with hc' | hc'
        · exact hvis y (List.mem_cons_of_mem x hy) hc'
        · exact (List.nodup_cons.1 hnd).1 (by simpa using (List.mem_singleton.1 hc') ▸ hy))
    have heq : visited ++ x :: P = (visited ++ [x]) ++ P := by simp
    calc (univ.filter (fun y => decide (y ∉ visited ++ x :: P))).length + (x :: P).length
        = (univ.filter (fun y => decide (y ∉ (visited ++ [x]) ++ P))).length + (P.length + 1) := by
          rw [heq]; simp [List.length_cons]
      _ ≤ (univ.filter (fun y => decide (y ∉ visited ++ [x]))).length + 1 := by omega
      _ ≤ (univ.filter (fun y => decide (y ∉ visited))).length := h1

/-! ### The BFS loop invariant and its preservation -/

lemma bfsLoop_zero (adj : String → List String) (m : Nat) (Q : List (String × Nat))
    (V : List String) : bfsLoop adj m 0 Q V = V := rfl

lemma bfsLoop_nil (adj : String → List String) (m fuel : Nat) (V : List String) :
    bfsLoop adj m (fuel + 1) [] V = V := rfl

lemma bfsLoop_cons (adj : String → List String) (m fuel : Nat) (node : String)
    (depth : Nat) (rest : List (String × Nat)) (V : List String) :
    bfsLoop adj m (fuel + 1) ((node, depth) :: rest) V =
      if m ≤ depth then bfsLoop adj m fuel rest V
      else bfsLoop adj m fuel (bfsEnqueue (adj node) V rest (depth + 1)).2
        (bfsEnqueue (adj node) V rest (depth + 1)).1 := rfl

lemma pairwise_snd_le_of_const (c : Nat) :
    ∀ P : List (String × Nat), (∀ p ∈ P, p.2 = c) →
      P.Pairwise (fun a b => a.2 ≤ b.2) := by
  intro P
  induction P with
  | nil => intro _; exact List.Pairwise.nil
  | cons p P ih =>
    intro h
    refine List.Pairwise.cons (fun q hq => ?_) (ih fun q hq => h q (List.mem_cons_of_mem p hq))
    rw [h p (List.mem_cons_self p P), h q (List.mem_cons_of_mem p hq)]

/-- The data the BFS loop preserves: `δ` assigns every visited node the depth
it was enqueued at.  Queue entries are visited nodes carrying their assigned
depth; assigned depths never exceed any queued depth by more than one; every
visited node is still queued, was cut off by the depth bound, or has had all
its neighbours visited within one extra hop; every visited node is genuinely
reachable within its assigned depth; and the queue is sorted by depth with all
entries within one level of each other. -/
structure BfsInv (adj : String → List String) (maxDepth : Nat) (start : String)
    (Q : List (String × Nat)) (V : List String) (δ : String → Nat) : Prop where
  queue_mem : ∀ p ∈ Q, p.1 ∈ V ∧ δ p.1 = p.2
  depth_bound : ∀ v ∈ V, ∀ p ∈ Q, δ v ≤ p.2 + 1
  processed : ∀ v ∈ V, (∃ p ∈ Q, p.1 = v) ∨ maxDepth ≤ δ v ∨
    ∀ nb ∈ adj v, nb ∈ V ∧ δ nb ≤ δ v + 1
  start_mem : start ∈ V
  start_depth : δ start = 0
  sound : ∀ v ∈ V, v ∈ specReachableWithin adj (δ v) start ∧ δ v ≤ maxDepth
  sorted : Q.Pairwise (fun a b => a.2 ≤ b.2)
  twolevel : ∀ a ∈ Q, ∀ b ∈ Q, a.2 ≤ b.2 + 1

lemma bfsLoop_inv (adj : String → List String) (univ : List String)
    (hadj : ∀ n, ∀ x ∈ adj n, x ∈ univ) (maxDepth : Nat) (start : String) :
    ∀ (fuel : Nat) (Q : List (String × Nat)) (V : List String) (δ : String → Nat),
    Q.length + (univ.filter (fun y => decide (y ∉ V))).length < fuel →
    BfsInv adj maxDepth start Q V δ →
    ∃ δ2 : String → Nat, (∀ v ∈ V, δ2 v = δ v) ∧
      V ⊆ bfsLoop adj maxDepth fuel Q V ∧
      BfsInv adj maxDepth start [] (bfsLoop adj maxDepth fuel Q V) δ2 := by
  intro fuel
  induction fuel with
  | zero =>
    intro Q V δ hfuel _
    omega
  | succ fuel ih =>
    intro Q V δ hfuel hinv
    match Q with
    | [] =>
      rw [bfsLoop_nil]
      exact ⟨δ, fun v _ => rfl, List.Subset.refl V, hinv⟩
    | (node, depth) :: rest =>
      have hnodeV : node ∈ V := (hinv.queue_mem (node, depth) (List.mem_cons_self _ _)).1
      have hδnode : δ node = depth := (hinv.queue_mem (node, depth) (List.mem_cons_self _ _)).2
      have hsorted_head : ∀ b ∈ rest, depth ≤ b.2 :=
        fun b hb => (List.pairwise_cons.1 hinv.sorted).1 b hb
      have hrest_sorted := (List.pairwise_cons.1 hinv.sorted).2
      by_cases hskip : maxDepth ≤ depth
      · -- the popped entry is beyond the depth bound and is dropped
        rw [bfsLoop_cons, if_pos hskip]
        have hfuel' : rest.length + (univ.filter (fun y => decide (y ∉ V))).length < fuel := by
          simp only [List.length_cons] at hfuel
          omega
        have hinv' : BfsInv adj maxDepth start rest V δ :=
          { queue_mem := fun p hp => hinv.queue_mem p (List.mem_cons_of_mem _ hp)
            depth_bound := fun v hv p hp => hinv.depth_bound v hv p (List.mem_cons_of_mem _ hp)
            processed := by
              intro v hv
              rcases hinv.processed v hv with ⟨p, hp, hpv⟩ | h | h
              · rcases List.mem_cons.1 hp with rfl | hp'
                · subst hpv
                  exact Or.inr (Or.inl (by rw [hδnode]; exact hskip))
                · exact Or.inl ⟨p, hp', hpv⟩
              · exact Or.inr (Or.inl h)
              · exact Or.inr (Or.inr h)
            start_mem := hinv.start_mem
            start_depth := hinv.start_depth
            sound := hinv.sound
            sorted := hrest_sorted
            twolevel := fun a ha b hb =>
              hinv.twolevel a (List.mem_cons_of_mem _ ha) b (List.mem_cons_of_mem _ hb) }
        exact ih rest V δ hfuel' hinv'
      · -- expansion: every unvisited neighbour is enqueued one level deeper
        have hdlt : depth < maxDepth := Nat.lt_of_not_le hskip
        obtain ⟨P, hP1, hP2, hP3, hP4, hP5⟩ := bfsEnqueue_spec (depth + 1) (adj node) V rest
        have hPn_notV : ∀ y ∈ P.map Prod.fst, y ∉ V := by
          intro y hy
          obtain ⟨p, hp, rfl⟩ := List.mem_map.1 hy
          exact (hP3 p hp).2.2
        have hV_notPn : ∀ v ∈ V, v ∉ P.map Prod.fst := fun v hv hc => hPn_notV v hc hv
        have hPn_adj : ∀ y ∈ P.map Prod.fst, y ∈ adj node := by
          intro y hy
          obtain ⟨p, hp, rfl⟩ := List.mem_map.1 hy
          exact (hP3 p hp).2.1
        have hPn_univ : ∀ y ∈ P.map Prod.fst, y ∈ univ :=
          fun y hy => hadj node y (hPn_adj y hy)
        set δ2 : String → Nat := fun x => if x ∈ P.map Prod.fst then depth + 1 else δ x with hδ2
        have hδ2_V : ∀ v ∈ V, δ2 v = δ v := by
          intro v hv
          simp only [hδ2]
          rw [if_neg (hV_notPn v hv)]
        have hδ2_P : ∀ y ∈ P.map Prod.fst, δ2 y = depth + 1 := by
          intro y hy
          simp only [hδ2]
          rw [if_pos hy]
        have hPdepth : ∀ p ∈ P, p.2 = depth + 1 := fun p hp => (hP3 p hp).1
        have hfuel2 : (rest ++ P).length +
            (univ.filter (fun y => decide (y ∉ V ++ P.map Prod.fst))).length < fuel := by
          have hcount := length_filter_not_mem_append_le univ (P.map Prod.fst) V hP4
            hPn_univ hPn_notV
          simp only [List.length_cons] at hfuel
          rw [List.length_append]
          have hPlen : (P.map Prod.fst).length = P.length := List.length_map P Prod.fst
          omega
        have hinv2 : BfsInv adj maxDepth start (rest ++ P) (V ++ P.map Prod.fst) δ2 :=
          { queue_mem := by
              intro p hp
              rcases List.mem_append.1 hp with hp' | hp'
              · have h := hinv.queue_mem p (List.mem_cons_of_mem _ hp')
                exact ⟨List.mem_append_left _ h.1, by rw [hδ2_V p.1 h.1]; exact h.2⟩
              · have hmem : p.1 ∈ P.map Prod.fst := List.mem_map_of_mem Prod.fst hp'
                exact ⟨List.mem_append_right _ hmem, by
                  rw [hδ2_P p.1 hmem, hPdepth p hp']⟩
            depth_bound := by
              intro v hv p hp
              rcases List.mem_append.1 hv with hvV | hvP
              · rw [hδ2_V v hvV]
                rcases List.mem_append.1 hp with hp' | hp'
                · exact hinv.depth_bound v hvV p (List.mem_cons_of_mem _ hp')
                · rw [hPdepth p hp']
                  have := hinv.depth_bound v hvV (node, depth) (List.mem_cons_self _ _)
                  omega
              · rw [hδ2_P v hvP]
                rcases List.mem_append.1 hp with hp' | hp'
                · have := hsorted_head p hp'
                  omega
                · rw [hPdepth p hp']
                  omega
            processed := by
              intro v hv
              rcases List.mem_append.1 hv with hvV | hvP
              · by_cases hvn : v = node
                · subst hvn
                  refine Or.inr (Or.inr (fun nb hnb => ?_))
                  rw [hδ2_V v hvV, hδnode]
                  by_cases hnbV : nb ∈ V
                  · refine ⟨List.mem_append_left _ hnbV, ?_⟩
                    rw [hδ2_V nb hnbV]
                    exact hinv.depth_bound nb hnbV (v, depth) (List.mem_cons_self _ _)
                  · have hnbP : nb ∈ P.map Prod.fst := hP5 nb hnb hnbV
                    exact ⟨List.mem_append_right _ hnbP, by rw [hδ2_P nb hnbP]⟩
                · rcases hinv.processed v hvV with ⟨p, hp, hpv⟩ | h | h
                  · rcases List.mem_cons.1 hp with rfl | hp'
                    · exact absurd hpv.symm (by simpa using hvn)
                    · exact Or.inl ⟨p, List.mem_append_left _ hp', hpv⟩
                  · exact Or.inr (Or.inl (by rw [hδ2_V v hvV]; exact h))
                  · refine Or.inr (Or.inr (fun nb hnb => ?_))
                    obtain ⟨hnbV, hnbδ⟩ := h nb hnb
                    refine ⟨List.mem_append_left _ hnbV, ?_⟩
                    rw [hδ2_V nb hnbV, hδ2_V v hvV]
                    exact hnbδ
              · obtain ⟨p, hp, hpv⟩ := List.mem_map.1 hvP
                exact Or.inl ⟨p, List.mem_append_right _ hp, hpv⟩
            start_mem := List.mem_append_left _ hinv.start_mem
            start_depth := by
              rw [hδ2_V start hinv.start_mem]
              exact hinv.start_depth
            sound := by
              intro v hv
              rcases List.mem_append.1 hv with hvV | hvP
              · rw [hδ2_V v hvV]
                exact hinv.sound v hvV
              · rw [hδ2_P v hvP]
                have hnode_sound := (hinv.sound node hnodeV).1
                rw [hδnode] at hnode_sound
                refine ⟨specReachableWithin_step adj depth start node v hnode_sound
                  (hPn_adj v hvP), ?_⟩
                omega
            sorted := by
              rw [List.pairwise_append]
              refine ⟨hrest_sorted, pairwise_snd_le_of_const (depth + 1) P hPdepth, ?_⟩
              intro a ha b hb
              have h1 := hinv.twolevel a (List.mem_cons_of_mem _ ha) (node, depth)
                (List.mem_cons_self _ _)
              rw [hPdepth b hb]
              omega
            twolevel := by
              intro a ha b hb
              rcases List.mem_append.1 ha with ha' | ha' <;>
                rcases List.mem_append.1 hb with hb' | hb'
              · exact hinv.twolevel a (List.mem_cons_of_mem _ ha') b
                  (List.mem_cons_of_mem _ hb')
              · have h1 := hinv.twolevel a (List.mem_cons_of_mem _ ha') (node, depth)
                  (List.mem_cons_self _ _)
                rw [hPdepth b hb']
                omega
              · have h1 := hsorted_head b hb'
                rw [hPdepth a ha']
                omega
              · rw [hPdepth a ha', hPdepth b hb']
                omega }
        obtain ⟨δ3, hag, hsub, hfin⟩ := ih (rest ++ P) (V ++ P.map Prod.fst) δ2 hfuel2 hinv2
        rw [bfsLoop_cons, if_neg hskip, hP1, hP2]
        refine ⟨δ3, ?_, ?_, hfin⟩
        · intro v hv
          rw [hag v (List.mem_append_left _ hv), hδ2_V v hv]
        · intro x hx
          exact hsub (List.mem_append_left _ hx)

/-- From the final invariant (empty queue), anything within the remaining
budget of a visited node is itself visited. -/
lemma bfsInv_final_complete (adj : String → List String) (maxDepth : Nat)
    (start : String) (Vf : List String) (δf : String → Nat)
    (hinv : BfsInv adj maxDepth start [] Vf δf) :
    ∀ (k : Nat) (v : String), v ∈ Vf → δf v + k ≤ maxDepth →
      ∀ x ∈ specReachableWithin adj k v, x ∈ Vf := by
  intro k
  induction k with
  | zero =>
    intro v hv _ x hx
    rw [specReachableWithin_zero_iff] at hx
    subst hx
    exact hv
  | succ k ih =>
    intro v hv hdepth x hx
    rw [specReachableWithin_succ_iff] at hx
    rcases hx with rfl | ⟨nb, hnb, hx⟩
    · exact hv
    · rcases hinv.processed v hv with ⟨p, hp, _⟩ | hmax | hclosed
      · cases hp
      · omega
      · obtain ⟨hnbV, hnbδ⟩ := hclosed nb hnb
        exact ih nb hnbV (by omega) x hx

/-- The universe of names the BFS can ever enqueue beyond its start: edge
targets for a forward traversal, edge sources for a backward one. -/
def dirUniv (d : GraphData) (dir : Direction) : List String :=
  match dir with
  | .forward => (edgesExpanded d).map (·.2)
  | .backward => (edgesExpanded d).map (·.1)

lemma neighborsOf_subset_dirUniv (d : GraphData) (dir : Direction) :
    ∀ n, ∀ x ∈ neighborsOf d dir n, x ∈ dirUniv d dir := by
  intro n x hx
  cases dir with
  | forward =>
    have h := mem_redisEdges.1 hx
    exact List.mem_map.2 ⟨(n, x), h, rfl⟩
  | backward =>
    have h := mem_redisReverse.1 hx
    exact List.mem_map.2 ⟨(x, n), h, rfl⟩

/-- Correctness of `bfsRedis`: it computes exactly the set of names reachable
from the start within `maxDepth` hops of the direction's adjacency. -/
lemma bfsRedis_mem_iff (d : GraphData) (start : String) (dir : Direction)
    (maxDepth : Nat) (x : String) :
    x ∈ bfsRedis d start dir maxDepth ↔
      x ∈ specReachableWithin (neighborsOf d dir) maxDepth start := by
  have hfuel : (([(start, 0)] : List (String × Nat))).length +
      ((dirUniv d dir).filter (fun y => decide (y ∉ [start]))).length <
      (edgesExpanded d).length + 2 := by
    have h1 : ((dirUniv d dir).filter (fun y => decide (y ∉ [start]))).length ≤
        (dirUniv d dir).length := List.length_filter_le _ _
    have h2 : (dirUniv d dir).length = (edgesExpanded d).length := by
      cases dir <;> simp [dirUniv]
    simp only [List.length_singleton]
    omega
  have hinv0 : BfsInv (neighborsOf d dir) maxDepth start [(start, 0)] [start]
      (fun _ => 0) :=
    { queue_mem := by
        intro p hp
        rcases List.mem_singleton.1 hp with rfl
        exact ⟨List.mem_singleton.2 rfl, rfl⟩
      depth_bound := by
        intro v _ p hp
        rcases List.mem_singleton.1 hp with rfl
        omega
      processed := by
        intro v hv
        rcases List.mem_singleton.1 hv with rfl
        exact Or.inl ⟨(v, 0), List.mem_singleton.2 rfl, rfl⟩
      start_mem := List.mem_singleton.2 rfl
      start_depth := rfl
      sound := by
        intro v hv
        rcases List.mem_singleton.1 hv with rfl
        exact ⟨specReachableWithin_self _ 0 v, Nat.zero_le _⟩
      sorted := List.pairwise_singleton _ _
      twolevel := by
        intro a ha b hb
        rcases List.mem_singleton.1 ha with rfl
        rcases List.mem_singleton.1 hb with rfl
        omega }
  obtain ⟨δ3, _, hsub, hfin⟩ := bfsLoop_inv (neighborsOf d dir) (dirUniv d dir)
    (neighborsOf_subset_dirUniv d dir) maxDepth start
    ((edgesExpanded d).length + 2) [(start, 0)] [start] (fun _ => 0) hfuel hinv0
  constructor
  · intro hx
    have h := hfin.sound x hx
    exact specReachableWithin_mono (neighborsOf d dir) h.2 start x h.1
  · intro hx
    have hstart := hfin.start_mem
    have hδ := hfin.start_depth
    exact bfsInv_final_complete (neighborsOf d dir) maxDepth start _ δ3 hfin
      maxDepth start hstart (by omega) x hx

/-! ### Response-level helper lemmas -/

lemma bfsRedis_start_mem (d : GraphData) (start : String) (dir : Direction)
    (maxDepth : Nat) : start ∈ bfsRedis d start dir maxDepth :=
  (bfsRedis_mem_iff d start dir maxDepth start).2
    (specReachableWithin_self (neighborsOf d dir) maxDepth start)

lemma mem_resp_nodes_iff (d : GraphData) (ids : List String) (x : String) :
    (∃ nr ∈ (buildGraphResponseRedis d ids).nodes, nr.id = x) ↔ x ∈ ids := by
  show (∃ nr ∈ ids.dedup.map (buildNodeRespRedis d), nr.id = x) ↔ x ∈ ids
  constructor
  · rintro ⟨nr, hnr, hid⟩
    obtain ⟨y, hy, rfl⟩ := List.mem_map.1 hnr
    have hyid : (buildNodeRespRedis d y).id = y := rfl
    rw [hyid] at hid
    subst hid
    exact List.mem_dedup.1 hy
  · intro hx
    exact ⟨buildNodeRespRedis d x, List.mem_map.2 ⟨x, List.mem_dedup.2 hx, rfl⟩, rfl⟩

lemma mem_links_redis_iff (d : GraphData) (ids : List String) (x y : String) :
    ({ source := x, target := y } : GraphLink) ∈ buildLinksRedis d ids ↔
      x ∈ ids ∧ (x, y) ∈ edgesExpanded d ∧ y ∈ ids := by
  simp only [buildLinksRedis, List.mem_flatMap, List.mem_map, List.mem_filter,
    List.mem_dedup, decide_eq_true_iff, GraphLink.mk.injEq]
  constructor
  · rintro ⟨u, hu, t, ⟨ht, htids⟩, hux, hty, -⟩
    subst hux
    subst hty
    exact ⟨hu, mem_redisEdges.1 ht, htids⟩
  · rintro ⟨hx, he, hy⟩
    exact ⟨x, hx, y, ⟨mem_redisEdges.2 he, hy⟩, rfl, rfl, trivial⟩

lemma mem_redisQueryNodeIds_fPub (d : GraphData) (x : String) :
    x ∈ redisQueryNodeIds d fPub ↔ x ∈ (publicNames d).flatMap (reachPublic d) := by
  show x ∈ (publicNames d).flatMap (reachPublic d) ++ [] ++ [] ++ [] ↔ _
  simp

lemma mem_redisQueryNodeIds_fSink (d : GraphData) (x : String) :
    x ∈ redisQueryNodeIds d fSink ↔ x ∈ (sinkNames d).flatMap (reachSink d) := by
  show x ∈ [] ++ (sinkNames d).flatMap (reachSink d) ++ [] ++ [] ↔ _
  simp

lemma mem_redisQueryNodeIds_fBoth (d : GraphData) (x : String) :
    x ∈ redisQueryNodeIds d fBoth ↔
      x ∈ (publicNames d).flatMap (reachPublic d) ∨
        x ∈ (sinkNames d).flatMap (reachSink d) := by
  show x ∈ (publicNames d).flatMap (reachPublic d) ++
    (sinkNames d).flatMap (reachSink d) ++ [] ++ [] ↔ _
  simp [List.mem_append]

lemma mem_memRev {d : GraphData} {n u : String} :
    u ∈ memRev d n ↔ (u, n) ∈ edgesExpanded d := by
  show u ∈ redisReverse d n ↔ _
  exact mem_redisReverse

/-- Declared node names together with every name occurring as an endpoint of
an expanded edge: the only names any bounded traversal can ever visit. -/
def reachUniverse (d : GraphData) : List String :=
  nodeNames d ++ (edgesExpanded d).map (·.1) ++ (edgesExpanded d).map (·.2)

lemma bfsRedis_subset_universe (d : GraphData) (start : String) (dir : Direction)
    (maxDepth : Nat) (hstart : start ∈ nodeNames d) :
    ∀ x ∈ bfsRedis d start dir maxDepth, x ∈ reachUniverse d := by
  intro x hx
  have h := (bfsRedis_mem_iff d start dir maxDepth x).1 hx
  rcases specReachableWithin_src (neighborsOf d dir) maxDepth start x h with rfl | ⟨n, hn⟩
  · exact List.mem_append_left _ (List.mem_append_left _ hstart)
  · have hu := neighborsOf_subset_dirUniv d dir n x hn
    cases dir with
    | forward => exact List.mem_append_right _ hu
    | backward => exact List.mem_append_left _ (List.mem_append_right _ hu)

lemma nodeNames_subset_universe (d : GraphData) {x : String} (h : x ∈ nodeNames d) :
    x ∈ reachUniverse d :=
  List.mem_append_left _ (List.mem_append_left _ h)

/-! ### The claims -/

/-- C1 (counterexample): on the in-memory backend, with a sink `B` fed only by
the non-public `C`, the sink-only query returns `B` while the combined
public-and-sink query drops the route (its source is not public), so the
combined node set is not the union of the separate node sets. -/
theorem c1_counterexample :
    (getFilteredGraphMemory gSinkOnly fBoth).isSome = true ∧
    "B" ∈ respNodeIds (getFilteredGraphMemory gSinkOnly fSink) ∧
    "B" ∉ respNodeIds (getFilteredGraphMemory gSinkOnly fBoth) := by
  decide

/-- C1 (amended): on the durable (Redis) backend, the node set returned by
`query(startsWithPublic and endsInSink)` is exactly the union of the node sets
returned by `query(startsWithPublic)` and `query(endsInSink)` on the same
loaded state. -/
theorem c1_union_redis (d : GraphData) (x : String) :
    (∃ nr ∈ (getFilteredGraphRedis d fBoth).nodes, nr.id = x) ↔
      ((∃ nr ∈ (getFilteredGraphRedis d fPub).nodes, nr.id = x) ∨
       (∃ nr ∈ (getFilteredGraphRedis d fSink).nodes, nr.id = x)) := by
  simp only [getFilteredGraphRedis]
  rw [mem_resp_nodes_iff, mem_resp_nodes_iff, mem_resp_nodes_iff,
    mem_redisQueryNodeIds_fBoth, mem_redisQueryNodeIds_fPub, mem_redisQueryNodeIds_fSink]

/-- C2 (counterexample): on the in-memory backend, a query with no active
filter returns only nodes on precomputed routes; a declared node with no role
and no edges is missing from the result. -/
theorem c2_counterexample :
    (getFilteredGraphMemory gIsolated fEmpty).isSome = true ∧
    "C" ∈ nodeNames gIsolated ∧
    "C" ∉ respNodeIds (getFilteredGraphMemory gIsolated fEmpty) := by
  decide

/-- C2 (amended): on the durable (Redis) backend, a query with no active
filter returns exactly the loaded node names as nodes, and exactly the
expanded declared edges with both endpoints in that node set as links. -/
theorem c2_empty_query_redis (d : GraphData) (x y : String) :
    ((∃ nr ∈ (getFilteredGraphRedis d fEmpty).nodes, nr.id = x) ↔ x ∈ nodeNames d) ∧
    (({ source := x, target := y } : GraphLink) ∈ (getFilteredGraphRedis d fEmpty).links ↔
      ((x, y) ∈ edgesExpanded d ∧ x ∈ nodeNames d ∧ y ∈ nodeNames d)) := by
  constructor
  · simp only [getFilteredGraphRedis]
    rw [mem_resp_nodes_iff]
    show x ∈ nodeNames d ↔ x ∈ nodeNames d
    exact Iff.rfl
  · show ({ source := x, target := y } : GraphLink) ∈ buildLinksRedis d (nodeNames d) ↔ _
    rw [mem_links_redis_iff]
    exact ⟨fun ⟨a, b, c⟩ => ⟨b, a, c⟩, fun ⟨b, a, c⟩ => ⟨a, b, c⟩⟩

/-- C3: in the 12-node unbranched chain with public head `n0`, the precomputed
public reachability set (forward BFS, default depth 10) contains every node up
to 10 hops from the head and excludes `n11`, which is 11 hops away. -/
theorem c3_bounded_depth_chain :
    "n0" ∈ publicNames gChain ∧
    (∀ n ∈ (["n0", "n1", "n2", "n3", "n4", "n5", "n6", "n7", "n8", "n9", "n10"] :
      List String), n ∈ reachPublic gChain "n0") ∧
    "n11" ∉ reachPublic gChain "n0" := by
  decide

/-- C4 (counterexample): on the in-memory backend, a public node with no
outgoing edge produces no precomputed route, so it is absent from the
`startsWithPublic` query result despite having `publicExposed = true`. -/
theorem c4_counterexample :
    ({ name := "A", kind := "service", publicExposed := true } : ServiceNode)
        ∈ gIsolatedPublic.nodes ∧
    (getFilteredGraphMemory gIsolatedPublic fPub).isSome = true ∧
    "A" ∉ respNodeIds (getFilteredGraphMemory gIsolatedPublic fPub) := by
  decide

/-- C4 (amended): on the durable (Redis) backend, every node whose
`publicExposed` flag is true appears among the node ids returned by
`query(startsWithPublic)` — its own reachability set contains it. -/
theorem c4_public_in_query_redis (d : GraphData) (n : ServiceNode)
    (hn : n ∈ d.nodes) (hpub : n.publicExposed = true) :
    ∃ nr ∈ (getFilteredGraphRedis d fPub).nodes, nr.id = n.name := by
  simp only [getFilteredGraphRedis]
  refine (mem_resp_nodes_iff d _ n.name).2 ?_
  rw [mem_redisQueryNodeIds_fPub]
  refine List.mem_flatMap.2 ⟨n.name, mem_publicNames.2 ⟨n, hn, hpub, rfl⟩, ?_⟩
  exact bfsRedis_start_mem d n.name .forward 10

/-- C4 witness: the public node `A` of the two-node example graph is returned
by the Redis `startsWithPublic` query. -/
theorem c4_public_in_query_redis_witness :
    ({ name := "A", kind := "service", publicExposed := true } : ServiceNode)
        ∈ gSecond.nodes ∧
    (∃ nr ∈ (getFilteredGraphRedis gSecond fPub).nodes, nr.id = "A") :=
  ⟨by decide, c4_public_in_query_redis gSecond
    { name := "A", kind := "service", publicExposed := true } (by decide) rfl⟩

/-- C5: loading `G1` and then `G2` leaves exactly the state of loading `G2`
alone, on either backend: the whole keyspace (resp. instance fields) and the
statistics coincide, and every name in any index comes from `G2`. -/
theorem c5_reload_replaces (sR : RedisState) (sM : MemState) (G1 G2 : GraphData) :
    loadGraphRedisS (loadGraphRedisS sR G1) G2 = loadGraphRedisS emptyRedisState G2 ∧
    loadGraphMemoryS (loadGraphMemoryS sM G1) G2 = loadGraphMemoryS emptyMemState G2 ∧
    getStatisticsRedisS (loadGraphRedisS (loadGraphRedisS sR G1) G2) =
      getStatisticsRedisS (loadGraphRedisS emptyRedisState G2) ∧
    getStatisticsMemoryS (loadGraphMemoryS (loadGraphMemoryS sM G1) G2) =
      getStatisticsMemoryS (loadGraphMemoryS emptyMemState G2) ∧
    (∀ x, x ∈ (loadGraphRedisS (loadGraphRedisS sR G1) G2).allNodes → x ∈ nodeNames G2) ∧
    (∀ x, x ∈ (loadGraphRedisS (loadGraphRedisS sR G1) G2).publicSet ∨
          x ∈ (loadGraphRedisS (loadGraphRedisS sR G1) G2).sinkSet ∨
          x ∈ (loadGraphRedisS (loadGraphRedisS sR G1) G2).vulnSet →
      x ∈ nodeNames G2) ∧
    (∀ x, x ∈ (loadGraphMemoryS (loadGraphMemoryS sM G1) G2).nodesM.map Prod.fst →
      x ∈ nodeNames G2) := by
  refine ⟨rfl, rfl, rfl, rfl, fun x hx => hx, fun x hx => ?_, fun x hx => ?_⟩
  · rcases hx with h | h | h
    · exact publicNames_subset h
    · exact sinkNames_subset h
    · exact vulnerableNames_subset h
  · simp only [loadGraphMemoryS, List.mem_map] at hx
    obtain ⟨⟨a, nd⟩, hmem, rfl⟩ := hx
    simp only [List.mem_filterMap] at hmem
    obtain ⟨n, hn, heq⟩ := hmem
    obtain ⟨nd', _, heq2⟩ := Option.map_eq_some'.1 heq
    cases heq2
    exact hn

/-- C5 witness: after loading the one-node graph and then the two-node graph,
the node `B` of the second graph is present and indeed belongs to it. -/
theorem c5_reload_replaces_witness :
    "B" ∈ (loadGraphRedisS (loadGraphRedisS emptyRedisState gFirst) gSecond).allNodes ∧
    "B" ∈ nodeNames gSecond :=
  ⟨by decide, (c5_reload_replaces emptyRedisState emptyMemState gFirst gSecond).2.2.2.2.1
    "B" (by decide)⟩

/-- C6: for every vulnerable seed `v`, the stored reachability set equals the
union of the names reachable from `v` within 5 hops backward, the names
reachable within 5 hops forward, and `v` itself (`specReachableWithin` is the
spec-side notion of bounded reachability, proved equal to the BFS). -/
theorem c6_vulnerable_reach_sets (d : GraphData) (v : String)
    (_hv : v ∈ vulnerableNames d) (x : String) :
    x ∈ reachVulnerable d v ↔
      (x ∈ specReachableWithin (redisReverse d) 5 v ∨
       x ∈ specReachableWithin (redisEdges d) 5 v ∨ x = v) := by
  simp only [reachVulnerable, List.mem_append, List.mem_singleton]
  rw [bfsRedis_mem_iff, bfsRedis_mem_iff, or_assoc]
  exact Iff.rfl

/-- C6 witness: in the three-node graph around the vulnerable `V1`, the stored
set's membership of `A` matches the spec-side union. -/
theorem c6_vulnerable_reach_sets_witness :
    "V1" ∈ vulnerableNames gVuln ∧
    ("A" ∈ reachVulnerable gVuln "V1" ↔
      ("A" ∈ specReachableWithin (redisReverse gVuln) 5 "V1" ∨
       "A" ∈ specReachableWithin (redisEdges gVuln) 5 "V1" ∨ "A" = "V1")) :=
  ⟨by decide, c6_vulnerable_reach_sets gVuln "V1" (by decide) "A"⟩

/-- C7 (counterexample): the stored public reachability set of `A` contains
the undeclared edge target `X`, which is not among the declared node names. -/
theorem c7_counterexample :
    "A" ∈ publicNames gUndeclaredTarget ∧
    "X" ∈ reachPublic gUndeclaredTarget "A" ∧
    "X" ∉ nodeNames gUndeclaredTarget := by
  decide

/-- C7 (amended): every precomputed reachability set (public, sink,
vulnerable, or metadata-pair keyed) contains only names from the declared node
names together with the endpoint names of the expanded edges. -/
theorem c7_reach_subset_universe (d : GraphData) (x : String) :
    (∀ p, p ∈ publicNames d → x ∈ reachPublic d p → x ∈ reachUniverse d) ∧
    (∀ s, s ∈ sinkNames d → x ∈ reachSink d s → x ∈ reachUniverse d) ∧
    (∀ v, v ∈ vulnerableNames d → x ∈ reachVulnerable d v → x ∈ reachUniverse d) ∧
    (∀ kv n, n ∈ metaIndex d kv → x ∈ reachMeta d kv n → x ∈ reachUniverse d) := by
  refine ⟨?_, ?_, ?_, ?_⟩
  · intro p hp hx
    exact bfsRedis_subset_universe d p .forward 10 (publicNames_subset hp) x hx
  · intro s hs hx
    exact bfsRedis_subset_universe d s .backward 10 (sinkNames_subset hs) x hx
  · intro v hv hx
    have hvN := vulnerableNames_subset hv
    rcases List.mem_append.1 hx with hx' | hx'
    · rcases List.mem_append.1 hx' with hb | hf
      · exact bfsRedis_subset_universe d v .backward 5 hvN x hb
      · exact bfsRedis_subset_universe d v .forward 5 hvN x hf
    · rw [List.mem_singleton.1 hx']
      exact nodeNames_subset_universe d hvN
  · intro kv n hn hx
    have hnN := metaIndex_subset hn
    rcases List.mem_append.1 hx with hx' | hx'
    · rcases List.mem_append.1 hx' with hb | hf
      · exact bfsRedis_subset_universe d n .backward 5 hnN x hb
      · exact bfsRedis_subset_universe d n .forward 5 hnN x hf
    · rw [List.mem_singleton.1 hx']
      exact nodeNames_subset_universe d hnN

/-- C7 witness: in the graph with the undeclared target `X`, the reachability
set member `X` does lie in the extended universe. -/
theorem c7_reach_subset_universe_witness :
    "A" ∈ publicNames gUndeclaredTarget ∧
    "X" ∈ reachPublic gUndeclaredTarget "A" ∧
    "X" ∈ reachUniverse gUndeclaredTarget :=
  ⟨by decide, by decide,
    (c7_reach_subset_universe gUndeclaredTarget "X").1 "A" (by decide) (by decide)⟩

/-- C8 (counterexample): on the in-memory backend, an expanded edge whose
`from` endpoint is undeclared is recorded in reverse adjacency but *not* in
forward adjacency (the optional chaining drops it), so it is not recorded in
both directions as claimed. -/
theorem c8_counterexample :
    ("X", "A") ∈ edgesExpanded gUndeclaredSource ∧
    "X" ∉ nodeNames gUndeclaredSource ∧
    "A" ∉ memAdj gUndeclaredSource "X" ∧
    "X" ∈ memRev gUndeclaredSource "A" := by
  decide

/-- C8 (amended): every expanded edge is recorded in both forward and reverse
adjacency on the durable backend; on the in-memory backend the reverse entry
is always recorded while the forward entry is recorded when the source is a
declared node; an undeclared endpoint receives no role flags and no stored
node record. -/
theorem c8_edge_recording (d : GraphData) (u v : String)
    (he : (u, v) ∈ edgesExpanded d) :
    (v ∈ redisEdges d u ∧ u ∈ redisReverse d v) ∧
    u ∈ memRev d v ∧
    (u ∈ nodeNames d → v ∈ memAdj d u) ∧
    (∀ w, w ∉ nodeNames d →
      w ∉ publicNames d ∧ w ∉ sinkNames d ∧ w ∉ vulnerableNames d ∧
        lookupNode d w = none) := by
  refine ⟨⟨mem_redisEdges.2 he, mem_redisReverse.2 he⟩, mem_memRev.2 he, ?_, ?_⟩
  · intro hu
    rw [memAdj, if_pos hu]
    exact mem_redisEdges.2 he
  · intro w hw
    refine ⟨fun hc => hw (publicNames_subset hc), fun hc => hw (sinkNames_subset hc),
      fun hc => hw (vulnerableNames_subset hc), ?_⟩
    cases hfind : lookupNode d w with
    | none => rfl
    | some n =>
      have h1 := List.find?_some hfind
      have h2 := List.mem_of_find?_eq_some hfind
      exact absurd (mem_nodeNames.2 ⟨n, List.mem_reverse.1 h2, by simpa using h1⟩) hw

/-- C8 witness: the declared edge `A → B` of the two-node example graph is
recorded everywhere the amended claim says. -/
theorem c8_edge_recording_witness :
    ("A", "B") ∈ edgesExpanded gSecond ∧
    "B" ∈ redisEdges gSecond "A" ∧ "A" ∈ memRev gSecond "B" :=
  ⟨by decide, (c8_edge_recording gSecond "A" "B" (by decide)).1.1,
    (c8_edge_recording gSecond "A" "B" (by decide)).2.1⟩

/-- C9: with a declared public node `A` pointing at the undeclared name `X`,
the in-memory `startsWithPublic` query fails while building the response (the
non-null lookup of the missing node record), instead of returning a response
with a placeholder node. -/
theorem c9_memory_query_fails :
    "A" ∈ publicNames gUndeclaredTarget ∧
    ("A", "X") ∈ edgesExpanded gUndeclaredTarget ∧
    "X" ∉ nodeNames gUndeclaredTarget ∧
    getFilteredGraphMemory gUndeclaredTarget fPub = none := by
  decide

/-- C10: a present-but-empty `metadataFilters` mapping counts as an active
filter and yields an empty graph (no nodes, no links) on both backends, for
every loaded graph. -/
theorem c10_empty_metadata_filters (d : GraphData) :
    hasActiveFilters fMetaEmpty = true ∧
    (getFilteredGraphRedis d fMetaEmpty).nodes = [] ∧
    (getFilteredGraphRedis d fMetaEmpty).links = [] ∧
    getFilteredGraphMemory d fMetaEmpty =
      some { nodes := [], links := [], totalNodes := 0, totalEdges := 0,
             publicNodes := 0, sinkNodes := 0, vulnerableNodes := 0 } :=
  ⟨rfl, rfl, rfl, rfl⟩

end GraphOrama
